import Mathlib

/-!
# spectra-cache: a shallow embedding of `src/lib.rs`

This file embeds the data model and operations of the spectra-cache crate:
the `Entry` timestamped value, the `BloomFilter` probabilistic membership
filter, and the two cache backends `DistributedHashTable` (hash-indexed)
and `BTreeCache` (sorted-key indexed), together with theorems settling the
frozen claims about them.

Modelling conventions:
* `Instant` and `Duration` are logical clocks: natural numbers (e.g.
  nanoseconds).  Rust's `Instant::elapsed` is truncated subtraction, which
  `Nat` subtraction matches exactly.
* `HashMap<String, Entry>` is an association list whose insert replaces in
  place; `BTreeMap<String, Entry>` is a key-sorted association list.
* Methods taking `&mut self` become state-passing functions returning the
  new state; methods taking `&self` return only their result.
* `u64` arithmetic (`wrapping_mul`) is `Nat` arithmetic reduced `% 2 ^ 64`.
* `f64` sizing arithmetic in `BloomFilter::new` is modelled over exact
  reals (`Real.log`); `x.ceil() as usize` / `x.round() as usize` become
  `Int.toNat ∘ Int.ceil` / `Int.toNat ∘ round`, matching Rust's saturation
  of negative values to `0`.  The merge size re-estimate, whose operands
  are all ratios of machine integers, is modelled over `ℚ`.
* Code that can panic (`merge`'s `assert_eq!`) returns `Except String`;
  the asserts run before any mutation, so an `error` result is produced
  while `self` still holds its original, uncorrupted value.
-/

namespace SpectraCache

/-- An `Instant` of `std::time`, as a logical clock value (nanoseconds). -/
abbrev Instant := Nat

/-- A `Duration` of `std::time`, in the same unit as `Instant`. -/
abbrev Duration := Nat

/-- `Entry` of `src/lib.rs` (lines 23-29): a cached value together with an
optional TTL and its creation / last-access timestamps. -/
structure Entry where
  value : String
  ttl : Option Duration
  created_at : Instant
  last_accessed_at : Instant
deriving DecidableEq, Repr

namespace Entry

/-- `Entry::with_ttl` (lines 70-78): stamps both timestamps to "now".  The
`_key` parameter of the source is unused there and omitted here. -/
def with_ttl (value : String) (ttl : Option Duration) (now : Instant) : Entry :=
  { value := value, ttl := ttl, created_at := now, last_accessed_at := now }

/-- `Entry::new` (lines 48-50): `with_ttl` with no TTL. -/
def new (value : String) (now : Instant) : Entry :=
  with_ttl value none now

/-- `Entry::age` (lines 114-116): `created_at.elapsed()`, i.e.
`now - created_at` (truncated, as for Rust's monotone `Instant`). -/
def age (e : Entry) (now : Instant) : Duration :=
  now - e.created_at

/-- `Entry::is_expired` (lines 89-91):
`self.ttl.map_or(false, |ttl| self.age() > ttl)`. -/
def is_expired (e : Entry) (now : Instant) : Bool :=
  match e.ttl with
  | none => false
  | some ttl => decide (e.age now > ttl)

/-- `Entry::touch` (lines 97-99): sets `last_accessed_at` to "now". -/
def touch (e : Entry) (now : Instant) : Entry :=
  { e with last_accessed_at := now }

/-- `Entry::update_value` (lines 108-111): replaces the value, then
`touch()`es the entry.  `created_at` and `ttl` are untouched. -/
def update_value (e : Entry) (new_value : String) (now : Instant) : Entry :=
  Entry.touch { e with value := new_value } now

end Entry

/-- Stand-in for `std::collections::hash_map::DefaultHasher` (SipHash-1-3),
which lives outside this repository: a deterministic 64-bit hash of a
string.  Every claim below is agnostic to the concrete mixing; all that the
code relies on is that the same item always hashes to the same `u64`. -/
def defaultHash (s : String) : Nat :=
  s.toList.foldl (fun h c => (h * 1099511628211 + c.toNat) % 2 ^ 64) 14695981039346656037

/-- `BloomFilter` of `src/lib.rs` (lines 406-411): a bit array, the number
of derived hash positions, and an (approximate) element counter. -/
structure BloomFilter where
  bits : List Bool
  num_hash_functions : Nat
  size : Nat
deriving DecidableEq, Repr

namespace BloomFilter

/-- One `wrapping_mul` step of `get_index` (line 535): multiplication by the
fixed odd constant `0x517cc1b727220a95`, reduced `% 2 ^ 64` as for `u64`. -/
def wrapStep (h : Nat) : Nat :=
  h * 0x517cc1b727220a95 % 2 ^ 64

/-- `BloomFilter::get_index` (lines 532-538): apply `wrapStep` `i` times to
the base hash, then reduce modulo the bit-array length.  (In Rust `% 0`
panics; the cache-owned filters and every filter quantified over below have
a nonempty bit array or zero hash functions, so the `% 0` case is never
exercised by the source.) -/
def get_index (f : BloomFilter) (hash : Nat) (i : Nat) : Nat :=
  (wrapStep^[i] hash) % f.bits.length

/-- `BloomFilter::insert` (lines 455-466): set the bit at each of the `k`
derived positions, then increment the size counter unconditionally. -/
def insert (f : BloomFilter) (item : String) : BloomFilter :=
  { f with
    bits := (List.range f.num_hash_functions).foldl
      (fun bs i => bs.set (f.get_index (defaultHash item) i) true) f.bits
    size := f.size + 1 }

/-- `BloomFilter::contains` (lines 476-489): true iff the bits at all `k`
derived positions are set. -/
def contains (f : BloomFilter) (item : String) : Bool :=
  (List.range f.num_hash_functions).all
    (fun i => f.bits.getD (f.get_index (defaultHash item) i) false)

/-- `BloomFilter::clear` (lines 492-495): reset every bit and the counter. -/
def clear (f : BloomFilter) : BloomFilter :=
  { f with bits := f.bits.map (fun _ => false), size := 0 }

/-- `BloomFilter::merge` (lines 502-514).  The two `assert_eq!` guards run
before any mutation; a failed assert is a panic raised while `self` still
holds its original bits and size, modelled as an `error` result.  On
success the bit arrays are OR-ed and the size counter re-estimated from the
post-merge bit density (`round(len · density / k)`, exact rationals here
standing in for the `f64` arithmetic of the source). -/
def merge (f other : BloomFilter) : Except String BloomFilter :=
  if f.bits.length ≠ other.bits.length then
    Except.error "Bloom filters must have the same size to merge"
  else if f.num_hash_functions ≠ other.num_hash_functions then
    Except.error "Bloom filters must have the same number of hash functions to merge"
  else
    let bits := List.zipWith or f.bits other.bits
    let density : ℚ := (bits.count true : ℚ) / (bits.length : ℚ)
    Except.ok
      { bits := bits
        num_hash_functions := f.num_hash_functions
        size := (round ((bits.length : ℚ) * density / (f.num_hash_functions : ℚ))).toNat }

/-- `BloomFilter::optimal_num_bits` (lines 517-523):
`ceil(-n · ln p / ln(2)^2)`, cast to `usize`.  The `f64` arithmetic is
modelled over exact reals; `as usize` saturates negative values to `0`,
which `Int.toNat` matches. -/
noncomputable def optimal_num_bits (capacity : Nat) (false_positive_rate : ℝ) : Nat :=
  (Int.ceil ((-(capacity : ℝ) * Real.log false_positive_rate) /
    (Real.log 2 * Real.log 2))).toNat

/-- `BloomFilter::optimal_num_hash_functions` (lines 526-529):
`round((num_bits / capacity) · ln 2)`, cast to `usize`.  There is no
minimum-1 clamp in the source.  (For `capacity = 0` Rust produces `NaN`,
and `NaN as usize = 0`; Lean's `0 / 0 = 0` convention yields the same `0`.) -/
noncomputable def optimal_num_hash_functions (num_bits capacity : Nat) : Nat :=
  (round (((num_bits : ℝ) / (capacity : ℝ)) * Real.log 2)).toNat

/-- `BloomFilter::new` (lines 429-438): size the bit array and hash count
from the requested capacity and false-positive rate; all bits cleared,
counter zero.  No parameter validation is performed by the source. -/
noncomputable def new (capacity : Nat) (false_positive_rate : ℝ) : BloomFilter :=
  let num_bits := optimal_num_bits capacity false_positive_rate
  { bits := List.replicate num_bits false
    num_hash_functions := optimal_num_hash_functions num_bits capacity
    size := 0 }

end BloomFilter

/-! ## The entry stores

`HashMap<String, Entry>` and `BTreeMap<String, Entry>` are modelled as
association lists: the hash map as an insertion-ordered list whose insert
replaces in place, the B-tree map as a key-sorted list.  The shared
operations below are the exact semantics of the corresponding `std`
methods used by `src/lib.rs`. -/

/-- `map.get(key)`: the entry at `key`, if any (first match). -/
def lookupEntry : List (String × Entry) → String → Option Entry
  | [], _ => none
  | (k, e) :: rest, key => if key = k then some e else lookupEntry rest key

/-- `HashMap::insert`: replace the entry in place if the key is present,
append it otherwise. -/
def hmInsert : List (String × Entry) → String → Entry → List (String × Entry)
  | [], key, e => [(key, e)]
  | (k, e') :: rest, key, e =>
    if key = k then (key, e) :: rest else (k, e') :: hmInsert rest key e

/-- The key order of `BTreeMap<String, _>`: Rust compares strings by their
UTF-8 bytes, which orders them exactly as code-point-lexicographic order on
their character lists (UTF-8 preserves code-point order). -/
def strLt (a b : String) : Bool :=
  decide (a.data < b.data)

/-- `BTreeMap::insert`: place the entry at its sorted key position,
replacing an existing entry with the same key. -/
def btInsert : List (String × Entry) → String → Entry → List (String × Entry)
  | [], key, e => [(key, e)]
  | (k, e') :: rest, key, e =>
    if strLt key k then (key, e) :: (k, e') :: rest
    else if key = k then (key, e) :: rest
    else (k, e') :: btInsert rest key e

/-- `map.remove(key)`: drop the (first) entry with the given key. -/
def removeKey : List (String × Entry) → String → List (String × Entry)
  | [], _ => []
  | (k, e) :: rest, key => if key = k then rest else (k, e) :: removeKey rest key

/-- `map.get_mut(key)` followed by an in-place mutation of the entry:
apply `f` to the (first) entry with the given key. -/
def modifyEntry : List (String × Entry) → String → (Entry → Entry) → List (String × Entry)
  | [], _, _ => []
  | (k, e) :: rest, key, f =>
    if key = k then (k, f e) :: rest else (k, e) :: modifyEntry rest key f

/-- `DistributedHashTable` of `src/lib.rs` (lines 17-21): a hash-indexed
entry store plus one owned Bloom filter. -/
structure DistributedHashTable where
  entries : List (String × Entry)
  bloom_filter : BloomFilter
deriving DecidableEq, Repr

namespace DistributedHashTable

/-- `DistributedHashTable::new` (lines 121-126): empty store, filter sized
for capacity 1000 and false-positive rate 0.01. -/
noncomputable def new : DistributedHashTable :=
  { entries := [], bloom_filter := BloomFilter.new 1000 (1 / 100) }

/-- `DistributedHashTable::size` (lines 129-131): `self.entries.len()`. -/
def size (c : DistributedHashTable) : Nat :=
  c.entries.length

/-- `DistributedHashTable::is_empty` (lines 134-136). -/
def is_empty (c : DistributedHashTable) : Bool :=
  c.entries.isEmpty

/-- `DistributedHashTable::insert` (lines 141-145): store a no-TTL entry,
then record the key in the filter. -/
def insert (c : DistributedHashTable) (now : Instant) (key value : String) :
    DistributedHashTable :=
  { entries := hmInsert c.entries key (Entry.new value now)
    bloom_filter := c.bloom_filter.insert key }

/-- `DistributedHashTable::insert_with_ttl` (lines 150-154). -/
def insert_with_ttl (c : DistributedHashTable) (now : Instant) (key value : String)
    (ttl : Duration) : DistributedHashTable :=
  { entries := hmInsert c.entries key (Entry.with_ttl value (some ttl) now)
    bloom_filter := c.bloom_filter.insert key }

/-- `DistributedHashTable::get` (lines 159-176): filter fast-reject, then
lazy expiration (an expired entry is removed and `None` returned), else
touch and return the value. -/
def get (c : DistributedHashTable) (now : Instant) (key : String) :
    Option String × DistributedHashTable :=
  if c.bloom_filter.contains key = false then (none, c)
  else
    let is_expired := (lookupEntry c.entries key).elim false (fun e => e.is_expired now)
    if is_expired then (none, { c with entries := removeKey c.entries key })
    else
      match lookupEntry c.entries key with
      | some e =>
        (some e.value, { c with entries := modifyEntry c.entries key (Entry.touch · now) })
      | none => (none, c)

/-- `DistributedHashTable::remove` (lines 181-187): drop the entry and
return its prior value; the filter is not shrunk. -/
def remove (c : DistributedHashTable) (key : String) :
    Option String × DistributedHashTable :=
  match lookupEntry c.entries key with
  | some e => (some e.value, { c with entries := removeKey c.entries key })
  | none => (none, c)

/-- `DistributedHashTable::update` (lines 192-199): replace the value of an
existing entry via `update_value` (which touches); the filter and the
expiration state are not consulted. -/
def update (c : DistributedHashTable) (now : Instant) (key value : String) :
    Bool × DistributedHashTable :=
  match lookupEntry c.entries key with
  | some _ =>
    (true, { c with entries := modifyEntry c.entries key (Entry.update_value · value now) })
  | none => (false, c)

/-- `DistributedHashTable::clear` (lines 202-205). -/
def clear (c : DistributedHashTable) : DistributedHashTable :=
  { entries := [], bloom_filter := c.bloom_filter.clear }

/-- `DistributedHashTable::contains_key` (lines 210-226): filter
fast-reject, then the same expiration check-and-evict as `get`, without
touching. -/
def contains_key (c : DistributedHashTable) (now : Instant) (key : String) :
    Bool × DistributedHashTable :=
  if c.bloom_filter.contains key = false then (false, c)
  else
    match lookupEntry c.entries key with
    | some e =>
      if e.is_expired now then (false, { c with entries := removeKey c.entries key })
      else (true, c)
    | none => (false, c)

end DistributedHashTable

/-- `BTreeCache` of `src/lib.rs` (lines 246-250): a sorted-key entry store
plus one owned Bloom filter. -/
structure BTreeCache where
  entries : List (String × Entry)
  bloom_filter : BloomFilter
deriving DecidableEq, Repr

namespace BTreeCache

/-- `BTreeCache::new` (lines 254-259). -/
noncomputable def new : BTreeCache :=
  { entries := [], bloom_filter := BloomFilter.new 1000 (1 / 100) }

/-- `BTreeCache::size` (lines 262-264). -/
def size (c : BTreeCache) : Nat :=
  c.entries.length

/-- `BTreeCache::is_empty` (lines 267-269). -/
def is_empty (c : BTreeCache) : Bool :=
  c.entries.isEmpty

/-- `BTreeCache::insert` (lines 275-279). -/
def insert (c : BTreeCache) (now : Instant) (key value : String) : BTreeCache :=
  { entries := btInsert c.entries key (Entry.new value now)
    bloom_filter := c.bloom_filter.insert key }

/-- `BTreeCache::insert_with_ttl` (lines 285-289). -/
def insert_with_ttl (c : BTreeCache) (now : Instant) (key value : String)
    (ttl : Duration) : BTreeCache :=
  { entries := btInsert c.entries key (Entry.with_ttl value (some ttl) now)
    bloom_filter := c.bloom_filter.insert key }

/-- `BTreeCache::get` (lines 295-312): identical logic to the unordered
backend's `get`. -/
def get (c : BTreeCache) (now : Instant) (key : String) : Option String × BTreeCache :=
  if c.bloom_filter.contains key = false then (none, c)
  else
    let is_expired := (lookupEntry c.entries key).elim false (fun e => e.is_expired now)
    if is_expired then (none, { c with entries := removeKey c.entries key })
    else
      match lookupEntry c.entries key with
      | some e =>
        (some e.value, { c with entries := modifyEntry c.entries key (Entry.touch · now) })
      | none => (none, c)

/-- `BTreeCache::remove` (lines 318-324). -/
def remove (c : BTreeCache) (key : String) : Option String × BTreeCache :=
  match lookupEntry c.entries key with
  | some e => (some e.value, { c with entries := removeKey c.entries key })
  | none => (none, c)

/-- `BTreeCache::update` (lines 330-337). -/
def update (c : BTreeCache) (now : Instant) (key value : String) : Bool × BTreeCache :=
  match lookupEntry c.entries key with
  | some _ =>
    (true, { c with entries := modifyEntry c.entries key (Entry.update_value · value now) })
  | none => (false, c)

/-- `BTreeCache::clear` (lines 340-343). -/
def clear (c : BTreeCache) : BTreeCache :=
  { entries := [], bloom_filter := c.bloom_filter.clear }

/-- `BTreeCache::contains_key` (lines 349-365). -/
def contains_key (c : BTreeCache) (now : Instant) (key : String) : Bool × BTreeCache :=
  if c.bloom_filter.contains key = false then (false, c)
  else
    match lookupEntry c.entries key with
    | some e =>
      if e.is_expired now then (false, { c with entries := removeKey c.entries key })
      else (true, c)
    | none => (false, c)

/-- `BTreeCache::range` (lines 383-386): the entries whose keys lie in the
inclusive range `start..=stop`, in stored (ascending-key) order, projected
to `(key, value)` pairs.  Membership `start ≤ k ∧ k ≤ stop` is written as
`¬ k < start ∧ ¬ stop < k` in the `BTreeMap` key order `strLt`. -/
def range (c : BTreeCache) (start stop : String) : List (String × String) :=
  (c.entries.filter (fun p => !(strLt p.1 start) && !(strLt stop p.1))).map
    (fun p => (p.1, p.2.value))

/-- `BTreeCache::first` (lines 389-391): the smallest-key entry — the head
of the sorted store. -/
def first (c : BTreeCache) : Option (String × String) :=
  c.entries.head?.map (fun p => (p.1, p.2.value))

/-- `BTreeCache::last` (lines 394-396): the largest-key entry — the last
element of the sorted store. -/
def last (c : BTreeCache) : Option (String × String) :=
  c.entries.getLast?.map (fun p => (p.1, p.2.value))

end BTreeCache

/-! ## Lemmas about the entry stores -/

/-- The keys of an entry store, with no duplicates: the representation
invariant of both `std` maps. -/
def KeysNodup (l : List (String × Entry)) : Prop :=
  (l.map Prod.fst).Nodup

/-- Strictly ascending keys: the representation invariant of `BTreeMap`. -/
def KeysSorted (l : List (String × Entry)) : Prop :=
  l.Pairwise (fun p q => p.1.data < q.1.data)

theorem strLt_eq_true_iff {a b : String} : strLt a b = true ↔ a.data < b.data := by
  simp [strLt]

theorem String.eq_of_data_eq {a b : String} (h : a.data = b.data) : a = b := by
  cases a; cases b; exact congrArg String.mk h

theorem lookupEntry_eq_none_iff (l : List (String × Entry)) (k : String) :
    lookupEntry l k = none ↔ k ∉ l.map Prod.fst := by
  induction l with
  | nil => simp [lookupEntry]
  | cons p rest ih =>
    obtain ⟨a, e⟩ := p
    by_cases h : k = a
    · subst h; simp [lookupEntry]
    · simp [lookupEntry, h, ih, Ne.symm h]

theorem lookupEntry_hmInsert (l : List (String × Entry)) (k : String) (e : Entry)
    (k' : String) :
    lookupEntry (hmInsert l k e) k' = if k' = k then some e else lookupEntry l k' := by
  induction l with
  | nil =>
    by_cases h : k' = k <;> simp [hmInsert, lookupEntry, h]
  | cons p rest ih =>
    obtain ⟨a, e'⟩ := p
    by_cases hk : k = a
    · subst hk
      by_cases h : k' = k <;> simp [hmInsert, lookupEntry, h]
    · by_cases h : k' = a
      · subst h
        have : ¬ k' = k := fun hc => hk (hc ▸ rfl)
        simp [hmInsert, hk, lookupEntry, this]
      · simp [hmInsert, hk, lookupEntry, h, ih]

theorem lookupEntry_btInsert (l : List (String × Entry)) (k : String) (e : Entry)
    (k' : String) :
    lookupEntry (btInsert l k e) k' = if k' = k then some e else lookupEntry l k' := by
  induction l with
  | nil =>
    by_cases h : k' = k <;> simp [btInsert, lookupEntry, h]
  | cons p rest ih =>
    obtain ⟨a, e'⟩ := p
    by_cases hlt : strLt k a
    · by_cases h : k' = k
      · subst h; simp [btInsert, hlt, lookupEntry]
      · simp [btInsert, hlt, lookupEntry, h]
    · by_cases hk : k = a
      · subst hk
        by_cases h : k' = k <;> simp [btInsert, hlt, lookupEntry, h]
      · by_cases h : k' = a
        · subst h
          have : ¬ k' = k := fun hc => hk (hc ▸ rfl)
          simp [btInsert, hlt, hk, lookupEntry, this]
        · simp [btInsert, hlt, hk, lookupEntry, h, ih]

theorem lookupEntry_removeKey (l : List (String × Entry)) (k k' : String)
    (hnd : KeysNodup l) :
    lookupEntry (removeKey l k) k' = if k' = k then none else lookupEntry l k' := by
  induction l with
  | nil => simp [removeKey, lookupEntry]
  | cons p rest ih =>
    obtain ⟨a, e⟩ := p
    have hnd' : KeysNodup rest := (List.nodup_cons.mp hnd).2
    have hne : a ∉ rest.map Prod.fst := (List.nodup_cons.mp hnd).1
    by_cases hk : k = a
    · subst hk
      by_cases h : k' = k
      · subst h
        simp [removeKey, (lookupEntry_eq_none_iff rest k').mpr hne]
      · simp [removeKey, lookupEntry, h]
    · by_cases h : k' = a
      · subst h
        have : ¬ k' = k := fun hc => hk (hc ▸ rfl)
        simp [removeKey, hk, lookupEntry, this]
      · simp [removeKey, hk, lookupEntry, h, ih hnd']

theorem lookupEntry_modifyEntry (l : List (String × Entry)) (k : String)
    (f : Entry → Entry) (k' : String) :
    lookupEntry (modifyEntry l k f) k' =
      if k' = k then (lookupEntry l k).map f else lookupEntry l k' := by
  induction l with
  | nil => simp [modifyEntry, lookupEntry]
  | cons p rest ih =>
    obtain ⟨a, e⟩ := p
    by_cases hk : k = a
    · subst hk
      by_cases h : k' = k <;> simp [modifyEntry, lookupEntry, h]
    · by_cases h : k' = a
      · subst h
        have : ¬ k' = k := fun hc => hk (hc ▸ rfl)
        simp [modifyEntry, hk, lookupEntry, this]
      · simp [modifyEntry, hk, lookupEntry, h, ih]

theorem map_fst_modifyEntry (l : List (String × Entry)) (k : String) (f : Entry → Entry) :
    (modifyEntry l k f).map Prod.fst = l.map Prod.fst := by
  induction l with
  | nil => rfl
  | cons p rest ih =>
    obtain ⟨a, e⟩ := p
    by_cases hk : k = a <;> simp [modifyEntry, hk, ih]

theorem removeKey_sublist (l : List (String × Entry)) (k : String) :
    (removeKey l k).Sublist l := by
  induction l with
  | nil => simp [removeKey]
  | cons p rest ih =>
    obtain ⟨a, e⟩ := p
    by_cases hk : k = a
    · simp [removeKey, hk]
    · simpa [removeKey, hk] using ih.cons₂ (a, e)

theorem mem_fst_btInsert (l : List (String × Entry)) (k : String) (e : Entry)
    (q : String × Entry) (hq : q ∈ btInsert l k e) : q.1 = k ∨ q ∈ l := by
  induction l with
  | nil =>
    simp only [btInsert, List.mem_singleton] at hq
    exact Or.inl (by rw [hq])
  | cons p rest ih =>
    obtain ⟨a, e'⟩ := p
    by_cases hlt : strLt k a
    · simp only [btInsert, hlt, if_true] at hq
      rcases List.mem_cons.mp hq with h | h
      · exact Or.inl (by rw [h])
      · exact Or.inr h
    · have hlt' : strLt k a = false := by simpa using hlt
      by_cases hk : k = a
      · subst hk
        simp only [btInsert, hlt', Bool.false_eq_true, if_false, if_pos rfl] at hq
        rcases List.mem_cons.mp hq with h | h
        · exact Or.inl (by rw [h])
        · exact Or.inr (List.mem_cons_of_mem _ h)
      · simp only [btInsert, hlt', Bool.false_eq_true, if_false, hk] at hq
        rcases List.mem_cons.mp hq with h | h
        · exact Or.inr (by rw [h]; exact List.mem_cons_self _ _)
        · rcases ih h with h' | h'
          · exact Or.inl h'
          · exact Or.inr (List.mem_cons_of_mem _ h')

theorem keysSorted_btInsert (l : List (String × Entry)) (k : String) (e : Entry)
    (hs : KeysSorted l) : KeysSorted (btInsert l k e) := by
  induction l with
  | nil => simp [btInsert, KeysSorted]
  | cons p rest ih =>
    obtain ⟨a, e'⟩ := p
    rw [KeysSorted, List.pairwise_cons] at hs
    obtain ⟨ha, hrest⟩ := hs
    by_cases hlt : strLt k a
    · have hka : k.data < a.data := strLt_eq_true_iff.mp hlt
      rw [KeysSorted]
      simp only [btInsert, hlt, if_true]
      refine List.Pairwise.cons ?_ (List.Pairwise.cons ha hrest)
      intro q hq
      rcases List.mem_cons.mp hq with h | h
      · simp [h, hka]
      · exact lt_trans hka (ha q h)
    · have hlt' : strLt k a = false := by simpa using hlt
      by_cases hk : k = a
      · subst hk
        rw [KeysSorted]
        simp only [btInsert, hlt', Bool.false_eq_true, if_false, if_true]
        exact List.Pairwise.cons ha hrest
      · rw [KeysSorted]
        simp only [btInsert, hlt', Bool.false_eq_true, if_false, hk]
        refine List.Pairwise.cons ?_ (ih hrest)
        intro q hq
        rcases mem_fst_btInsert rest k e q hq with h | h
        · rw [h]
          have h1 : ¬ k.data < a.data := by
            simp only [← strLt_eq_true_iff]
            exact fun hc => hlt hc
          rcases lt_trichotomy a.data k.data with h2 | h2 | h2
          · exact h2
          · exact absurd (String.eq_of_data_eq h2.symm) hk
          · exact absurd h2 h1
        · exact ha q h

theorem keysNodup_of_keysSorted (l : List (String × Entry)) (hs : KeysSorted l) :
    KeysNodup l := by
  have h : l.Pairwise (fun p q : String × Entry => p.1 ≠ q.1) :=
    hs.imp (fun h hc => absurd (hc ▸ h) (lt_irrefl _))
  simpa [KeysNodup, List.Nodup, List.pairwise_map] using h

theorem mem_fst_hmInsert (l : List (String × Entry)) (k : String) (e : Entry)
    (x : String) (hx : x ∈ (hmInsert l k e).map Prod.fst) :
    x = k ∨ x ∈ l.map Prod.fst := by
  induction l with
  | nil => simpa [hmInsert] using hx
  | cons p rest ih =>
    obtain ⟨a, e'⟩ := p
    by_cases hk : k = a
    · subst hk
      simpa [hmInsert] using hx
    · simp only [hmInsert, hk, if_false, List.map_cons, List.mem_cons] at hx
      rcases hx with h | h
      · exact Or.inr (by simp [h])
      · rcases ih h with h' | h'
        · exact Or.inl h'
        · exact Or.inr (by simp [h'])

theorem keysNodup_hmInsert (l : List (String × Entry)) (k : String) (e : Entry)
    (h : KeysNodup l) : KeysNodup (hmInsert l k e) := by
  induction l with
  | nil => simp [hmInsert, KeysNodup]
  | cons p rest ih =>
    obtain ⟨a, e'⟩ := p
    rw [KeysNodup, List.map_cons, List.nodup_cons] at h
    obtain ⟨ha, hrest⟩ := h
    by_cases hk : k = a
    · subst hk
      have hred : hmInsert ((k, e') :: rest) k e = (k, e) :: rest := by simp [hmInsert]
      rw [KeysNodup, hred, List.map_cons, List.nodup_cons]
      exact ⟨ha, hrest⟩
    · rw [KeysNodup]
      simp only [hmInsert, hk, if_false, List.map_cons, List.nodup_cons]
      refine ⟨?_, ih hrest⟩
      intro hc
      rcases mem_fst_hmInsert rest k e a hc with h' | h'
      · exact hk (h'.symm)
      · exact ha h'

theorem keysNodup_removeKey (l : List (String × Entry)) (k : String)
    (h : KeysNodup l) : KeysNodup (removeKey l k) :=
  List.Nodup.sublist ((removeKey_sublist l k).map Prod.fst) h

theorem keysNodup_modifyEntry (l : List (String × Entry)) (k : String)
    (f : Entry → Entry) (h : KeysNodup l) : KeysNodup (modifyEntry l k f) := by
  rw [KeysNodup, map_fst_modifyEntry]
  exact h

theorem keysSorted_removeKey (l : List (String × Entry)) (k : String)
    (h : KeysSorted l) : KeysSorted (removeKey l k) :=
  List.Pairwise.sublist (removeKey_sublist l k) h

theorem keysSorted_iff_data (l : List (String × Entry)) :
    KeysSorted l ↔ ((l.map Prod.fst).map String.data).Pairwise (· < ·) := by
  simp [KeysSorted, List.pairwise_map]

theorem keysSorted_modifyEntry (l : List (String × Entry)) (k : String)
    (f : Entry → Entry) (h : KeysSorted l) : KeysSorted (modifyEntry l k f) := by
  rw [keysSorted_iff_data, map_fst_modifyEntry, ← keysSorted_iff_data]
  exact h

theorem length_eq_of_lookup_eq (l₁ l₂ : List (String × Entry))
    (h₁ : KeysNodup l₁) (h₂ : KeysNodup l₂)
    (h : ∀ k, lookupEntry l₁ k = lookupEntry l₂ k) : l₁.length = l₂.length := by
  have hmem : ∀ a, a ∈ l₁.map Prod.fst ↔ a ∈ l₂.map Prod.fst := fun a => by
    rw [← not_iff_not, ← lookupEntry_eq_none_iff, ← lookupEntry_eq_none_iff, h a]
  have hset : (l₁.map Prod.fst).toFinset = (l₂.map Prod.fst).toFinset := by
    ext a
    simp only [List.mem_toFinset]
    exact hmem a
  calc l₁.length = (l₁.map Prod.fst).length := (List.length_map _ _).symm
    _ = (l₁.map Prod.fst).toFinset.card := (List.toFinset_card_of_nodup h₁).symm
    _ = (l₂.map Prod.fst).toFinset.card := by rw [hset]
    _ = (l₂.map Prod.fst).length := List.toFinset_card_of_nodup h₂
    _ = l₂.length := List.length_map _ _

/-! ## Lemmas about the Bloom filter bit array -/

theorem getD_set_true (bs : List Bool) (i j : Nat) (h : bs.getD j false = true) :
    (bs.set i true).getD j false = true := by
  induction bs generalizing i j with
  | nil => simp at h
  | cons b bs ih =>
    cases i with
    | zero =>
      cases j with
      | zero => simp
      | succ j => simpa using h
    | succ i =>
      cases j with
      | zero => simpa using h
      | succ j => simpa using ih i j (by simpa using h)

theorem getD_set_self (bs : List Bool) (i : Nat) (h : i < bs.length) :
    (bs.set i true).getD i false = true := by
  induction bs generalizing i with
  | nil => simp at h
  | cons b bs ih =>
    cases i with
    | zero => simp
    | succ i => simpa using ih i (by simpa using h)

theorem length_foldl_set (g : Nat → Nat) (is : List Nat) (bs : List Bool) :
    (is.foldl (fun acc i => acc.set (g i) true) bs).length = bs.length := by
  induction is generalizing bs with
  | nil => rfl
  | cons i is ih => simp [List.foldl_cons, ih, List.length_set]

theorem getD_foldl_set_mono (g : Nat → Nat) (is : List Nat) (bs : List Bool) (j : Nat)
    (h : bs.getD j false = true) :
    ((is.foldl (fun acc i => acc.set (g i) true) bs).getD j false) = true := by
  induction is generalizing bs with
  | nil => exact h
  | cons i is ih => exact ih (bs.set (g i) true) (getD_set_true bs (g i) j h)

theorem getD_foldl_set_mem (g : Nat → Nat) (is : List Nat) (bs : List Bool) (j : Nat)
    (hj : j ∈ is) (hlen : g j < bs.length) :
    ((is.foldl (fun acc i => acc.set (g i) true) bs).getD (g j) false) = true := by
  induction is generalizing bs with
  | nil => cases hj
  | cons i is ih =>
    rcases List.mem_cons.mp hj with h | h
    · subst h
      exact getD_foldl_set_mono g is _ _ (getD_set_self bs (g j) hlen)
    · exact ih (bs.set (g i) true) h (by simpa [List.length_set] using hlen)

theorem getD_zipWith_or_left (xs ys : List Bool) (j : Nat)
    (hlen : xs.length = ys.length) (h : xs.getD j false = true) :
    (List.zipWith or xs ys).getD j false = true := by
  induction xs generalizing ys j with
  | nil => simp at h
  | cons x xs ih =>
    cases ys with
    | nil => simp at hlen
    | cons y ys =>
      cases j with
      | zero => simpa using Or.inl (by simpa using h)
      | succ j => simpa using ih ys j (by simpa using hlen) (by simpa using h)

namespace BloomFilter

theorem length_bits_insert (f : BloomFilter) (item : String) :
    (f.insert item).bits.length = f.bits.length :=
  length_foldl_set _ _ _

theorem num_hash_functions_insert (f : BloomFilter) (item : String) :
    (f.insert item).num_hash_functions = f.num_hash_functions := rfl

theorem get_index_congr (a b : BloomFilter) (h : a.bits.length = b.bits.length)
    (hash i : Nat) : a.get_index hash i = b.get_index hash i := by
  rw [get_index, get_index, h]

/-- Pointwise inclusion of set bits, at equal configuration: the order along
which a filter only ever gains information. -/
def BitsLE (a b : BloomFilter) : Prop :=
  a.bits.length = b.bits.length ∧ a.num_hash_functions = b.num_hash_functions ∧
  ∀ j, a.bits.getD j false = true → b.bits.getD j false = true

theorem bitsLE_refl (f : BloomFilter) : BitsLE f f :=
  ⟨rfl, rfl, fun _ h => h⟩

theorem bitsLE_trans {a b c : BloomFilter} (h₁ : BitsLE a b) (h₂ : BitsLE b c) :
    BitsLE a c :=
  ⟨h₁.1.trans h₂.1, h₁.2.1.trans h₂.2.1, fun j h => h₂.2.2 j (h₁.2.2 j h)⟩

theorem bitsLE_insert (f : BloomFilter) (item : String) : BitsLE f (f.insert item) :=
  ⟨(length_bits_insert f item).symm, rfl,
    fun j h => getD_foldl_set_mono _ _ _ j h⟩

theorem merge_ok_elim (f other f' : BloomFilter) (h : f.merge other = Except.ok f') :
    f.bits.length = other.bits.length ∧
    f'.bits = List.zipWith or f.bits other.bits ∧
    f'.num_hash_functions = f.num_hash_functions := by
  simp only [merge] at h
  split at h
  · cases h
  · split at h
    · cases h
    · rename_i h1 h2
      cases h
      exact ⟨not_not.mp (by simpa using h1), rfl, rfl⟩

theorem bitsLE_merge (f other f' : BloomFilter) (h : f.merge other = Except.ok f') :
    BitsLE f f' := by
  obtain ⟨hlen, hbits, hk⟩ := merge_ok_elim f other f' h
  refine ⟨?_, hk.symm, ?_⟩
  · rw [hbits, List.length_zipWith, hlen, min_self]
  · intro j hj
    rw [hbits]
    exact getD_zipWith_or_left _ _ j hlen hj

theorem contains_mono (a b : BloomFilter) (h : BitsLE a b) (item : String)
    (hc : a.contains item = true) : b.contains item = true := by
  obtain ⟨hlen, hk, hbits⟩ := h
  rw [contains, List.all_eq_true] at hc ⊢
  intro i hi
  rw [← hk] at hi
  have := hc i hi
  rw [← get_index_congr a b hlen]
  exact hbits _ this

theorem contains_insert_self (f : BloomFilter) (item : String)
    (hwf : 0 < f.bits.length) : (f.insert item).contains item = true := by
  rw [contains, List.all_eq_true]
  intro i hi
  have hidx : ∀ j, (f.insert item).get_index (defaultHash item) j
      = f.get_index (defaultHash item) j :=
    fun j => get_index_congr _ _ (length_bits_insert f item) _ j
  rw [num_hash_functions_insert] at hi
  rw [hidx]
  show ((List.range f.num_hash_functions).foldl
    (fun acc i => acc.set (f.get_index (defaultHash item) i) true) f.bits).getD
      (f.get_index (defaultHash item) i) false = true
  exact getD_foldl_set_mem _ _ _ i hi (Nat.mod_lt _ hwf)

end BloomFilter

/-- The filter-level operations other than `clear` that the spec allows
between an insert and a later membership query: further inserts and merges
(`merge` with a mismatched argument asserts before mutating, leaving the
filter as it was). -/
inductive FilterOp where
  | ins (item : String)
  | mrg (other : BloomFilter)

/-- Run one `FilterOp` on a filter.  A failed merge leaves the filter in
its pre-call state (the asserts fire before any mutation). -/
def applyFilterOp (f : BloomFilter) : FilterOp → BloomFilter
  | .ins item => f.insert item
  | .mrg other =>
    match f.merge other with
    | .ok f' => f'
    | .error _ => f

/-- Run a sequence of `FilterOp`s left to right. -/
def applyFilterOps (f : BloomFilter) (ops : List FilterOp) : BloomFilter :=
  ops.foldl applyFilterOp f

theorem bitsLE_applyFilterOp (f : BloomFilter) (op : FilterOp) :
    BloomFilter.BitsLE f (applyFilterOp f op) := by
  cases op with
  | ins item => exact BloomFilter.bitsLE_insert f item
  | mrg other =>
    rw [applyFilterOp]
    rcases hm : f.merge other with msg | f'
    · exact BloomFilter.bitsLE_refl f
    · exact BloomFilter.bitsLE_merge f other f' hm

theorem bitsLE_applyFilterOps (f : BloomFilter) (ops : List FilterOp) :
    BloomFilter.BitsLE f (applyFilterOps f ops) := by
  induction ops generalizing f with
  | nil => exact BloomFilter.bitsLE_refl f
  | cons op ops ih =>
    exact BloomFilter.bitsLE_trans (bitsLE_applyFilterOp f op) (ih (applyFilterOp f op))

/-! ## The shared contract surface of the two backends -/

/-- One invocation of a shared cache operation (the operations both
backends expose with identical signatures), with its clock reading. -/
inductive CacheOp where
  | insertOp (now : Instant) (key value : String)
  | insertWithTtlOp (now : Instant) (key value : String) (ttl : Duration)
  | getOp (now : Instant) (key : String)
  | updateOp (now : Instant) (key value : String)
  | removeOp (key : String)
  | containsKeyOp (now : Instant) (key : String)
  | clearOp
  | sizeOp
  | isEmptyOp

/-- The value an invocation returns to the caller. -/
inductive CacheResult where
  | unitRes
  | optRes (v : Option String)
  | boolRes (b : Bool)
  | natRes (n : Nat)
deriving DecidableEq, Repr

/-- Run one shared operation on the unordered backend. -/
def DistributedHashTable.runOp (c : DistributedHashTable) :
    CacheOp → DistributedHashTable × CacheResult
  | .insertOp now k v => (c.insert now k v, .unitRes)
  | .insertWithTtlOp now k v t => (c.insert_with_ttl now k v t, .unitRes)
  | .getOp now k => ((c.get now k).2, .optRes (c.get now k).1)
  | .updateOp now k v => ((c.update now k v).2, .boolRes (c.update now k v).1)
  | .removeOp k => ((c.remove k).2, .optRes (c.remove k).1)
  | .containsKeyOp now k => ((c.contains_key now k).2, .boolRes (c.contains_key now k).1)
  | .clearOp => (c.clear, .unitRes)
  | .sizeOp => (c, .natRes c.size)
  | .isEmptyOp => (c, .boolRes c.is_empty)

/-- Run a sequence of shared operations on the unordered backend,
collecting each operation's result. -/
def DistributedHashTable.runOps (c : DistributedHashTable) :
    List CacheOp → List CacheResult
  | [] => []
  | op :: ops => (c.runOp op).2 :: (c.runOp op).1.runOps ops

/-- Run one shared operation on the ordered backend. -/
def BTreeCache.runOp (c : BTreeCache) : CacheOp → BTreeCache × CacheResult
  | .insertOp now k v => (c.insert now k v, .unitRes)
  | .insertWithTtlOp now k v t => (c.insert_with_ttl now k v t, .unitRes)
  | .getOp now k => ((c.get now k).2, .optRes (c.get now k).1)
  | .updateOp now k v => ((c.update now k v).2, .boolRes (c.update now k v).1)
  | .removeOp k => ((c.remove k).2, .optRes (c.remove k).1)
  | .containsKeyOp now k => ((c.contains_key now k).2, .boolRes (c.contains_key now k).1)
  | .clearOp => (c.clear, .unitRes)
  | .sizeOp => (c, .natRes c.size)
  | .isEmptyOp => (c, .boolRes c.is_empty)

/-- Run a sequence of shared operations on the ordered backend. -/
def BTreeCache.runOps (c : BTreeCache) : List CacheOp → List CacheResult
  | [] => []
  | op :: ops => (c.runOp op).2 :: (c.runOp op).1.runOps ops

/-- The simulation relation between the two backends: equal filters, valid
store representations on both sides, and key-for-key equal lookups. -/
structure CacheRel (h : DistributedHashTable) (b : BTreeCache) : Prop where
  filters : h.bloom_filter = b.bloom_filter
  nodupH : KeysNodup h.entries
  sortedB : KeysSorted b.entries
  lookups : ∀ k, lookupEntry h.entries k = lookupEntry b.entries k

theorem cacheRel_runOp (h : DistributedHashTable) (b : BTreeCache) (op : CacheOp)
    (hr : CacheRel h b) :
    CacheRel (h.runOp op).1 (b.runOp op).1 ∧ (h.runOp op).2 = (b.runOp op).2 := by
  obtain ⟨hf, hnd, hsb, hlk⟩ := hr
  have hndB : KeysNodup b.entries := keysNodup_of_keysSorted _ hsb
  cases op with
  | insertOp now k v =>
    refine ⟨?_, rfl⟩
    simp only [DistributedHashTable.runOp, BTreeCache.runOp,
      DistributedHashTable.insert, BTreeCache.insert]
    exact ⟨by rw [hf], keysNodup_hmInsert _ _ _ hnd, keysSorted_btInsert _ _ _ hsb,
      fun k' => by simp only [lookupEntry_hmInsert, lookupEntry_btInsert, hlk k']⟩
  | insertWithTtlOp now k v t =>
    refine ⟨?_, rfl⟩
    simp only [DistributedHashTable.runOp, BTreeCache.runOp,
      DistributedHashTable.insert_with_ttl, BTreeCache.insert_with_ttl]
    exact ⟨by rw [hf], keysNodup_hmInsert _ _ _ hnd, keysSorted_btInsert _ _ _ hsb,
      fun k' => by simp only [lookupEntry_hmInsert, lookupEntry_btInsert, hlk k']⟩
  | getOp now k =>
    have hcases := Bool.eq_false_or_eq_true (b.bloom_filter.contains k)
    refine ⟨?_, ?_⟩
    all_goals simp only [DistributedHashTable.runOp, BTreeCache.runOp,
      DistributedHashTable.get, BTreeCache.get, hf, hlk k]
    · rcases hcases with hc | hc
      · cases hle : lookupEntry b.entries k with
        | none =>
          simp [hc, hle]
          exact ⟨hf, hnd, hsb, hlk⟩
        | some e =>
          rcases Bool.eq_false_or_eq_true (e.is_expired now) with hex | hex
          · simp [hc, hle, hex]
            exact ⟨rfl, keysNodup_removeKey _ _ hnd, keysSorted_removeKey _ _ hsb,
              fun k' => by
                rw [lookupEntry_removeKey _ _ _ hnd, lookupEntry_removeKey _ _ _ hndB]
                by_cases hk : k' = k <;> simp [hk, hlk k']⟩
          · simp [hc, hle, hex]
            exact ⟨rfl, keysNodup_modifyEntry _ _ _ hnd, keysSorted_modifyEntry _ _ _ hsb,
              fun k' => by
                rw [lookupEntry_modifyEntry, lookupEntry_modifyEntry]
                by_cases hk : k' = k <;> simp [hk, hlk k', hlk k]⟩
      · simp [hc]
        exact ⟨hf, hnd, hsb, hlk⟩
    · rcases hcases with hc | hc
      · cases hle : lookupEntry b.entries k with
        | none => simp [hc, hle]
        | some e =>
          rcases Bool.eq_false_or_eq_true (e.is_expired now) with hex | hex <;>
            simp [hc, hle, hex]
      · simp [hc]
  | updateOp now k v =>
    refine ⟨?_, ?_⟩
    all_goals simp only [DistributedHashTable.runOp, BTreeCache.runOp,
      DistributedHashTable.update, BTreeCache.update, hf, hlk k]
    · cases hle : lookupEntry b.entries k with
      | none =>
        simp [hle]
        exact ⟨hf, hnd, hsb, hlk⟩
      | some e =>
        simp [hle]
        exact ⟨rfl, keysNodup_modifyEntry _ _ _ hnd, keysSorted_modifyEntry _ _ _ hsb,
          fun k' => by
            rw [lookupEntry_modifyEntry, lookupEntry_modifyEntry]
            by_cases hk : k' = k <;> simp [hk, hlk k', hlk k]⟩
    · cases hle : lookupEntry b.entries k with
      | none => simp [hle]
      | some e => simp [hle]
  | removeOp k =>
    refine ⟨?_, ?_⟩
    all_goals simp only [DistributedHashTable.runOp, BTreeCache.runOp,
      DistributedHashTable.remove, BTreeCache.remove, hf, hlk k]
    · cases hle : lookupEntry b.entries k with
      | none =>
        simp [hle]
        exact ⟨hf, hnd, hsb, hlk⟩
      | some e =>
        simp [hle]
        exact ⟨rfl, keysNodup_removeKey _ _ hnd, keysSorted_removeKey _ _ hsb,
          fun k' => by
            rw [lookupEntry_removeKey _ _ _ hnd, lookupEntry_removeKey _ _ _ hndB]
            by_cases hk : k' = k <;> simp [hk, hlk k']⟩
    · cases hle : lookupEntry b.entries k with
      | none => simp [hle]
      | some e => simp [hle]
  | containsKeyOp now k =>
    have hcases := Bool.eq_false_or_eq_true (b.bloom_filter.contains k)
    refine ⟨?_, ?_⟩
    all_goals simp only [DistributedHashTable.runOp, BTreeCache.runOp,
      DistributedHashTable.contains_key, BTreeCache.contains_key, hf, hlk k]
    · rcases hcases with hc | hc
      · cases hle : lookupEntry b.entries k with
        | none =>
          simp [hc, hle]
          exact ⟨hf, hnd, hsb, hlk⟩
        | some e =>
          rcases Bool.eq_false_or_eq_true (e.is_expired now) with hex | hex
          · simp [hc, hle, hex]
            exact ⟨rfl, keysNodup_removeKey _ _ hnd, keysSorted_removeKey _ _ hsb,
              fun k' => by
                rw [lookupEntry_removeKey _ _ _ hnd, lookupEntry_removeKey _ _ _ hndB]
                by_cases hk : k' = k <;> simp [hk, hlk k']⟩
          · simp [hc, hle, hex]
            exact ⟨hf, hnd, hsb, hlk⟩
      · simp [hc]
        exact ⟨hf, hnd, hsb, hlk⟩
    · rcases hcases with hc | hc
      · cases hle : lookupEntry b.entries k with
        | none => simp [hc, hle]
        | some e =>
          rcases Bool.eq_false_or_eq_true (e.is_expired now) with hex | hex <;>
            simp [hc, hle, hex]
      · simp [hc]
  | clearOp =>
    refine ⟨?_, rfl⟩
    simp only [DistributedHashTable.runOp, BTreeCache.runOp,
      DistributedHashTable.clear, BTreeCache.clear]
    exact ⟨by rw [hf], by simp [KeysNodup], by simp [KeysSorted], fun k' => rfl⟩
  | sizeOp =>
    exact ⟨⟨hf, hnd, hsb, hlk⟩, by
      simp only [DistributedHashTable.runOp, BTreeCache.runOp,
        DistributedHashTable.size, BTreeCache.size]
      rw [length_eq_of_lookup_eq _ _ hnd hndB hlk]⟩
  | isEmptyOp =>
    refine ⟨⟨hf, hnd, hsb, hlk⟩, ?_⟩
    have hlen := length_eq_of_lookup_eq _ _ hnd hndB hlk
    simp only [DistributedHashTable.runOp, BTreeCache.runOp,
      DistributedHashTable.is_empty, BTreeCache.is_empty]
    cases hh : h.entries <;> cases hb : b.entries <;>
      rw [hh, hb] at hlen <;> simp_all

theorem cacheRel_runOps (h : DistributedHashTable) (b : BTreeCache) (ops : List CacheOp)
    (hr : CacheRel h b) : h.runOps ops = b.runOps ops := by
  induction ops generalizing h b with
  | nil => rfl
  | cons op ops ih =>
    obtain ⟨hrel, hres⟩ := cacheRel_runOp h b op hr
    simp only [DistributedHashTable.runOps, BTreeCache.runOps, hres, ih _ _ hrel]


/-! ## Claim-side definitions -/

/-- The "number of live entries" of claim C6: index entries whose TTL has
not elapsed at the given instant (removed entries are no longer in the
index at all). -/
def liveEntryCount (l : List (String × Entry)) (now : Instant) : Nat :=
  (l.filter (fun p => !(p.2.is_expired now))).length

/-- Index entries that are expired but not yet evicted. -/
def expiredEntryCount (l : List (String × Entry)) (now : Instant) : Nat :=
  (l.filter (fun p => p.2.is_expired now)).length

theorem length_filter_split (l : List (String × Entry)) (p : String × Entry → Bool) :
    (l.filter (fun x => !(p x))).length + (l.filter p).length = l.length := by
  induction l with
  | nil => rfl
  | cons x xs ih =>
    rcases Bool.eq_false_or_eq_true (p x) with h | h <;> simp [h, ← ih] <;> omega

/-! ## The claims -/

/-- C1: No false negatives — for every key inserted into a `BloomFilter`
(with a nonempty bit array, as every filter the code constructs for actual
use has), as long as `clear()` has not been called afterwards, `contains`
on that key returns `true`, regardless of any other inserts or merges
performed in between.  A merge with a mismatched filter asserts before
mutating, so it leaves the bits unchanged. -/
theorem bloom_no_false_negatives (f : BloomFilter) (key : String) (ops : List FilterOp)
    (hwf : 0 < f.bits.length) :
    (applyFilterOps (f.insert key) ops).contains key = true :=
  BloomFilter.contains_mono _ _ (bitsLE_applyFilterOps (f.insert key) ops) key
    (BloomFilter.contains_insert_self f key hwf)

/-- C1 witness: a concrete 8-bit filter, an insert of `"a"`, then another
insert and a (mismatched, hence non-mutating) merge; `contains "a"` is
still `true`. -/
theorem bloom_no_false_negatives_witness :
    (applyFilterOps ((BloomFilter.mk (List.replicate 8 false) 2 0).insert "a")
      [FilterOp.ins "b", FilterOp.mrg (BloomFilter.mk (List.replicate 4 false) 2 0)]).contains
      "a" = true :=
  bloom_no_false_negatives (BloomFilter.mk (List.replicate 8 false) 2 0) "a"
    [FilterOp.ins "b", FilterOp.mrg (BloomFilter.mk (List.replicate 4 false) 2 0)]
    (by decide)

/-- C2: on both backends, `get` follows the specified contract: filter
fast-reject returns `None` with the cache untouched; a missing index entry
returns `None`; a present-and-expired entry is removed from the index
(filter unchanged) with `None` returned; a live entry is touched
(`last_accessed_at := now`) and its value returned. -/
theorem get_follows_spec_contract :
    (∀ (c : DistributedHashTable) (now : Instant) (key : String),
      (c.bloom_filter.contains key = false → c.get now key = (none, c)) ∧
      (c.bloom_filter.contains key = true → lookupEntry c.entries key = none →
        c.get now key = (none, c)) ∧
      (∀ e, c.bloom_filter.contains key = true → lookupEntry c.entries key = some e →
        e.is_expired now = true →
        c.get now key = (none, { c with entries := removeKey c.entries key })) ∧
      (∀ e, c.bloom_filter.contains key = true → lookupEntry c.entries key = some e →
        e.is_expired now = false →
        c.get now key = (some e.value,
          { c with entries := modifyEntry c.entries key (Entry.touch · now) }))) ∧
    (∀ (c : BTreeCache) (now : Instant) (key : String),
      (c.bloom_filter.contains key = false → c.get now key = (none, c)) ∧
      (c.bloom_filter.contains key = true → lookupEntry c.entries key = none →
        c.get now key = (none, c)) ∧
      (∀ e, c.bloom_filter.contains key = true → lookupEntry c.entries key = some e →
        e.is_expired now = true →
        c.get now key = (none, { c with entries := removeKey c.entries key })) ∧
      (∀ e, c.bloom_filter.contains key = true → lookupEntry c.entries key = some e →
        e.is_expired now = false →
        c.get now key = (some e.value,
          { c with entries := modifyEntry c.entries key (Entry.touch · now) }))) := by
  constructor
  · intro c now key
    exact ⟨fun hc => by simp [DistributedHashTable.get, hc],
      fun hc hl => by simp [DistributedHashTable.get, hc, hl],
      fun e hc hl hex => by simp [DistributedHashTable.get, hc, hl, hex],
      fun e hc hl hex => by simp [DistributedHashTable.get, hc, hl, hex]⟩
  · intro c now key
    exact ⟨fun hc => by simp [BTreeCache.get, hc],
      fun hc hl => by simp [BTreeCache.get, hc, hl],
      fun e hc hl hex => by simp [BTreeCache.get, hc, hl, hex],
      fun e hc hl hex => by simp [BTreeCache.get, hc, hl, hex]⟩

/-- C3 counterexample: a cache holding key `"k"` whose entry was created at
instant 0 with TTL 5; at instant 10 the entry is expired.  `update` returns
`true` and replaces value and `last_accessed_at`, but the updated entry is
STILL expired at instant 10 (`created_at` is not reset), contradicting the
claim that the entry "is live again". -/
theorem update_expired_cex :
    (DistributedHashTable.update
      ⟨[("k", ⟨"v", some 5, 0, 0⟩)], BloomFilter.mk (List.replicate 8 false) 2 1⟩
      10 "k" "w").1 = true ∧
    lookupEntry (DistributedHashTable.update
      ⟨[("k", ⟨"v", some 5, 0, 0⟩)], BloomFilter.mk (List.replicate 8 false) 2 1⟩
      10 "k" "w").2.entries "k" = some ⟨"w", some 5, 0, 10⟩ ∧
    Entry.is_expired ⟨"w", some 5, 0, 10⟩ 10 = true := by
  decide

/-- C3 as amended: `update` on an expired-but-present entry returns
success, replaces the value and updates `last_accessed_at`, but leaves
`created_at` (hence the expiration state) untouched: the entry is still
expired at the same instant, and the next read will evict it. -/
theorem update_expired_behavior (c : DistributedHashTable) (now : Instant)
    (key value : String) (e : Entry)
    (hl : lookupEntry c.entries key = some e) (hex : e.is_expired now = true) :
    (c.update now key value).1 = true ∧
    lookupEntry (c.update now key value).2.entries key =
      some { e with value := value, last_accessed_at := now } ∧
    Entry.is_expired { e with value := value, last_accessed_at := now } now = true := by
  refine ⟨by simp [DistributedHashTable.update, hl], ?_, ?_⟩
  · simp [DistributedHashTable.update, hl, lookupEntry_modifyEntry,
      Entry.update_value, Entry.touch]
  · simpa [Entry.is_expired, Entry.age] using hex

/-- C3 witness: the amended behavior at a concrete expired entry. -/
theorem update_expired_behavior_witness :
    (DistributedHashTable.update
      ⟨[("q", ⟨"old", some 3, 0, 0⟩)], BloomFilter.mk (List.replicate 4 false) 1 0⟩
      9 "q" "new").1 = true ∧
    lookupEntry (DistributedHashTable.update
      ⟨[("q", ⟨"old", some 3, 0, 0⟩)], BloomFilter.mk (List.replicate 4 false) 1 0⟩
      9 "q" "new").2.entries "q" = some ⟨"new", some 3, 0, 9⟩ ∧
    Entry.is_expired ⟨"new", some 3, 0, 9⟩ 9 = true :=
  update_expired_behavior
    ⟨[("q", ⟨"old", some 3, 0, 0⟩)], BloomFilter.mk (List.replicate 4 false) 1 0⟩
    9 "q" "new" ⟨"old", some 3, 0, 0⟩ (by decide) (by decide)

/-- C5: merging two filters whose bit-array sizes or hash-function counts
differ fails with a configuration-mismatch error before any mutation takes
place, so neither filter's bits or size counter is changed (in this pure
embedding the failure carries no modified state at all; in the source the
`assert_eq!` guards run before the first write to `self.bits`, and `other`
is never written). -/
theorem merge_mismatch_error (a b : BloomFilter)
    (hne : a.bits.length ≠ b.bits.length ∨ a.num_hash_functions ≠ b.num_hash_functions) :
    ∃ msg, a.merge b = Except.error msg := by
  rcases hne with hne | hne
  · exact ⟨_, by rw [BloomFilter.merge, if_pos hne]⟩
  · by_cases hlen : a.bits.length = b.bits.length
    · exact ⟨_, by rw [BloomFilter.merge, if_neg (not_not.mpr hlen), if_pos hne]⟩
    · exact ⟨_, by rw [BloomFilter.merge, if_pos hlen]⟩

/-- C5 witness: an 8-bit and a 4-bit filter cannot be merged. -/
theorem merge_mismatch_error_witness :
    ∃ msg, (BloomFilter.mk (List.replicate 8 false) 2 0).merge
      (BloomFilter.mk (List.replicate 4 false) 2 0) = Except.error msg :=
  merge_mismatch_error (BloomFilter.mk (List.replicate 8 false) 2 0)
    (BloomFilter.mk (List.replicate 4 false) 2 0) (Or.inl (by decide))

/-- C6 counterexample: a cache holding exactly one entry that is already
expired (created at 0 with TTL 5, observed at instant 10) reports
`size() = 1`, but the number of live entries is 0 — `size()` counts
expired-but-unevicted entries, contradicting the claim. -/
theorem size_counts_expired_cex :
    DistributedHashTable.size
      ⟨[("k", ⟨"v", some 5, 0, 0⟩)], BloomFilter.mk (List.replicate 8 false) 2 1⟩ = 1 ∧
    liveEntryCount [("k", ⟨"v", some 5, 0, 0⟩)] 10 = 0 := by
  decide

/-- C6 as amended: on both backends `size()` reports the number of entries
currently in the index — the live entries plus the expired-but-unevicted
ones — independent of the filter's contents; removed entries are gone from
the index and hence uncounted. -/
theorem size_counts_index_entries :
    (∀ (c : DistributedHashTable) (now : Instant) (f : BloomFilter),
      c.size = liveEntryCount c.entries now + expiredEntryCount c.entries now ∧
      DistributedHashTable.size { c with bloom_filter := f } = c.size) ∧
    (∀ (c : BTreeCache) (now : Instant) (f : BloomFilter),
      c.size = liveEntryCount c.entries now + expiredEntryCount c.entries now ∧
      BTreeCache.size { c with bloom_filter := f } = c.size) := by
  constructor <;> intro c now f <;>
    exact ⟨(length_filter_split c.entries (fun p => p.2.is_expired now)).symm, rfl⟩

/-- C8: populating an ordered cache with `"a","b","c" ↦ "1","2","3"` gives
`first() = ("a","1")`, `last() = ("c","3")` and
`range("a","b") = [("a","1"),("b","2")]`, ascending, bounds inclusive.  The
filter contents are irrelevant (`range`/`first`/`last` never consult the
filter), and the three queries take the cache immutably (`&self` in the
source) — they evict nothing and leave the index unchanged. -/
theorem ordered_range_first_last (f : BloomFilter) :
    ((((BTreeCache.mk [] f).insert 0 "a" "1").insert 0 "b" "2").insert 0 "c" "3").range
      "a" "b" = [("a", "1"), ("b", "2")] ∧
    ((((BTreeCache.mk [] f).insert 0 "a" "1").insert 0 "b" "2").insert 0 "c" "3").first
      = some ("a", "1") ∧
    ((((BTreeCache.mk [] f).insert 0 "a" "1").insert 0 "b" "2").insert 0 "c" "3").last
      = some ("c", "3") := by
  have he : ((((BTreeCache.mk [] f).insert 0 "a" "1").insert 0 "b" "2").insert
      0 "c" "3").entries
      = [("a", ⟨"1", none, 0, 0⟩), ("b", ⟨"2", none, 0, 0⟩), ("c", ⟨"3", none, 0, 0⟩)] := rfl
  refine ⟨?_, ?_, ?_⟩ <;>
    simp only [BTreeCache.range, BTreeCache.first, BTreeCache.last, he] <;> decide

/-- C9: the two backends have an identical contract surface — any sequence
of the shared operations (`insert`, `insert_with_ttl`, `get`, `update`,
`remove`, `contains_key`, `clear`, `size`, `is_empty`), applied identically
to a fresh `DistributedHashTable` and a fresh `BTreeCache`, returns the
same result at every step. -/
theorem backends_share_contract (ops : List CacheOp) :
    DistributedHashTable.new.runOps ops = BTreeCache.new.runOps ops :=
  cacheRel_runOps _ _ ops
    ⟨rfl, by simp [DistributedHashTable.new, KeysNodup],
      by simp [BTreeCache.new, KeysSorted], fun _ => rfl⟩

/-- C10 (implicit): a filter false positive never produces a spurious hit —
whatever the filter bits are, if a key is absent from the entries index
then `get` returns `None` and `contains_key` returns `false`, on both
backends.  The filter only decides whether the index is consulted. -/
theorem no_spurious_hit :
    (∀ (c : DistributedHashTable) (now : Instant) (key : String),
      lookupEntry c.entries key = none →
      (c.get now key).1 = none ∧ (c.contains_key now key).1 = false) ∧
    (∀ (c : BTreeCache) (now : Instant) (key : String),
      lookupEntry c.entries key = none →
      (c.get now key).1 = none ∧ (c.contains_key now key).1 = false) := by
  constructor
  · intro c now key hl
    rcases Bool.eq_false_or_eq_true (c.bloom_filter.contains key) with hc | hc <;>
      exact ⟨by simp [DistributedHashTable.get, hc, hl],
        by simp [DistributedHashTable.contains_key, hc, hl]⟩
  · intro c now key hl
    rcases Bool.eq_false_or_eq_true (c.bloom_filter.contains key) with hc | hc <;>
      exact ⟨by simp [BTreeCache.get, hc, hl],
        by simp [BTreeCache.contains_key, hc, hl]⟩

/-- C4 counterexample: `BloomFilter::new` performs no parameter
validation.  At the invalid input `capacity = 0` (and a legal rate) it
produces a filter — a degenerate one with an empty bit array and zero hash
functions — instead of reporting any construction-time error (its return
type has no error channel at all). -/
theorem new_invalid_params_cex :
    BloomFilter.new 0 (1 / 100) = ⟨[], 0, 0⟩ := by
  simp [BloomFilter.new, BloomFilter.optimal_num_bits,
    BloomFilter.optimal_num_hash_functions]

/-- C4 as amended: `new` never reports a construction-time error; it is
total.  For `capacity = 0`, or for any rate `≥ 1`, it returns the
degenerate filter with an empty bit array, zero hash functions and size 0.
(A rate of exactly 0 with positive capacity would make the `f64` sizing
overflow to `usize::MAX` and abort the allocation in Rust; that extreme is
outside this real-valued model and outside the claim's scope.) -/
theorem new_no_validation (capacity : Nat) (p : ℝ) (h : 1 ≤ p ∨ capacity = 0) :
    BloomFilter.new capacity p = ⟨[], 0, 0⟩ := by
  have hb : BloomFilter.optimal_num_bits capacity p = 0 := by
    rcases h with h | h
    · have hlog : 0 ≤ Real.log p := Real.log_nonneg h
      have hnum : -(capacity : ℝ) * Real.log p ≤ 0 := by
        have : (0:ℝ) ≤ (capacity : ℝ) := Nat.cast_nonneg capacity
        nlinarith
      have hx : (-(capacity : ℝ) * Real.log p) / (Real.log 2 * Real.log 2) ≤ 0 :=
        div_nonpos_iff.mpr (Or.inr ⟨hnum, mul_self_nonneg _⟩)
      have hceil : Int.ceil ((-(capacity : ℝ) * Real.log p) /
          (Real.log 2 * Real.log 2)) ≤ 0 := by
        rw [show (0:ℤ) = ((0:ℤ)) from rfl]
        exact Int.ceil_le.mpr (by exact_mod_cast hx)
      simp only [BloomFilter.optimal_num_bits]
      exact Int.toNat_eq_zero.mpr hceil
    · subst h
      simp [BloomFilter.optimal_num_bits]
  simp [BloomFilter.new, hb, BloomFilter.optimal_num_hash_functions]

/-- C4 witness: capacity 5 with the out-of-range rate 1. -/
theorem new_no_validation_witness :
    BloomFilter.new 5 1 = ⟨[], 0, 0⟩ :=
  new_no_validation 5 1 (Or.inl le_rfl)

/-- C7 counterexample: at the valid input `capacity = 1000`,
`rate = 0.9 ∈ (0,1)`, the code's hash-function count is `0`, not `≥ 1`:
there is no minimum-1 clamp in `optimal_num_hash_functions`. -/
theorem hash_count_zero_cex :
    BloomFilter.optimal_num_hash_functions
      (BloomFilter.optimal_num_bits 1000 (9 / 10)) 1000 = 0 := by
  have hb1 : (0.6931471803 : ℝ) < Real.log 2 := Real.log_two_gt_d9
  have hb2 : Real.log 2 < 0.6931471808 := Real.log_two_lt_d9
  have hb0 : (0:ℝ) < Real.log 2 := lt_trans (by norm_num) hb1
  have hL0 : (0:ℝ) < Real.log (10 / 9) := Real.log_pos (by norm_num)
  have hL : Real.log (10 / 9) ≤ 1 / 9 := by
    have h := Real.log_le_sub_one_of_pos (show (0:ℝ) < 10 / 9 by norm_num)
    linarith
  have hlog910 : Real.log ((9:ℝ) / 10) = -Real.log (10 / 9) := by
    rw [show ((9:ℝ) / 10) = ((10:ℝ) / 9)⁻¹ by norm_num, Real.log_inv]
  have hm_le : BloomFilter.optimal_num_bits 1000 (9 / 10) ≤ 232 := by
    simp only [BloomFilter.optimal_num_bits]
    rw [Int.toNat_le, Int.ceil_le, div_le_iff₀ (mul_pos hb0 hb0), hlog910]
    push_cast
    nlinarith [hL, hb1, hL0, sq_nonneg (Real.log 2 - 0.6931471803)]
  generalize hgen : BloomFilter.optimal_num_bits 1000 (9 / 10) = m at hm_le ⊢
  simp only [BloomFilter.optimal_num_hash_functions]
  rw [round_eq]
  have hmr : ((m : Nat) : ℝ) ≤ 232 := by exact_mod_cast hm_le
  have h1000 : (((1000 : Nat)) : ℝ) = 1000 := by norm_num
  have hy0 : (0:ℝ) ≤ (m : ℝ) / ((1000 : Nat) : ℝ) * Real.log 2 :=
    mul_nonneg (div_nonneg (Nat.cast_nonneg m) (by norm_num)) hb0.le
  have hy : (m : ℝ) / ((1000 : Nat) : ℝ) * Real.log 2 < 1 / 2 := by
    rw [h1000]
    nlinarith [hb2, hb0, hmr, (Nat.cast_nonneg m : (0:ℝ) ≤ (m : ℝ))]
  have hfl : ⌊(m : ℝ) / ((1000 : Nat) : ℝ) * Real.log 2 + 1 / 2⌋ = 0 :=
    Int.floor_eq_zero_iff.mpr (Set.mem_Ico.mpr ⟨by linarith, by linarith⟩)
  rw [hfl]
  rfl

/-- C7 as amended: `new` computes `m = ceil(-n·ln(p) / ln(2)^2)` and
`k = round((m/n)·ln 2)` with NO minimum clamp (these are the definitions of
`optimal_num_bits` / `optimal_num_hash_functions` above); `k ≥ 1` fails for
rates near 1 but does hold whenever `rate ≤ 1/2`. -/
theorem hash_count_formulas (n : Nat) (p : ℝ) (hn : 0 < n) (hp0 : 0 < p)
    (hp : p ≤ 1 / 2) :
    1 ≤ BloomFilter.optimal_num_hash_functions (BloomFilter.optimal_num_bits n p) n := by
  have hb0 : (0:ℝ) < Real.log 2 := Real.log_pos (by norm_num)
  have hn0 : (0:ℝ) < (n : ℝ) := by exact_mod_cast hn
  have hL2 : Real.log 2 ≤ -Real.log p := by
    have h1 : Real.log p ≤ Real.log (1 / 2) := Real.log_le_log hp0 hp
    rw [one_div, Real.log_inv] at h1
    linarith
  have hX0 : 0 < (-(n : ℝ) * Real.log p) / (Real.log 2 * Real.log 2) := by
    apply div_pos
    · nlinarith
    · exact mul_pos hb0 hb0
  have hm : (-(n : ℝ) * Real.log p) / (Real.log 2 * Real.log 2)
      ≤ ((BloomFilter.optimal_num_bits n p : Nat) : ℝ) := by
    simp only [BloomFilter.optimal_num_bits]
    have hcast : ((Int.toNat ⌈(-(n : ℝ) * Real.log p) /
        (Real.log 2 * Real.log 2)⌉ : Nat) : ℝ)
        = ((⌈(-(n : ℝ) * Real.log p) / (Real.log 2 * Real.log 2)⌉ : ℤ) : ℝ) := by
      exact_mod_cast congrArg (fun z : ℤ => (z : ℝ))
        (Int.toNat_of_nonneg (le_of_lt (Int.ceil_pos.mpr hX0)))
    rw [hcast]
    exact Int.le_ceil _
  generalize hgen : BloomFilter.optimal_num_bits n p = m at hm
  have hXbb : ((-(n : ℝ) * Real.log p) / (Real.log 2 * Real.log 2))
      * (Real.log 2 * Real.log 2) = (n : ℝ) * (-Real.log p) := by
    field_simp
  have h1 : (n : ℝ) * Real.log 2 ≤ (m : ℝ) * (Real.log 2 * Real.log 2) := by
    have h2 : ((-(n : ℝ) * Real.log p) / (Real.log 2 * Real.log 2))
        * (Real.log 2 * Real.log 2) ≤ (m : ℝ) * (Real.log 2 * Real.log 2) := by
      apply mul_le_mul_of_nonneg_right hm (mul_self_nonneg _)
    rw [hXbb] at h2
    nlinarith [hL2, hn0]
  have hnb : (n : ℝ) ≤ (m : ℝ) * Real.log 2 := by
    nlinarith [h1, hb0, (Nat.cast_nonneg m : (0:ℝ) ≤ (m : ℝ))]
  have hy : (1:ℝ) ≤ (m : ℝ) / (n : ℝ) * Real.log 2 := by
    rw [div_mul_eq_mul_div, le_div_iff₀ hn0, one_mul]
    linarith [hnb]
  simp only [BloomFilter.optimal_num_hash_functions]
  rw [round_eq]
  have h2 : (1:ℤ) ≤ ⌊(m : ℝ) / (n : ℝ) * Real.log 2 + 1 / 2⌋ := by
    apply Int.le_floor.mpr
    push_cast
    linarith
  calc (1:ℕ) = (1:ℤ).toNat := rfl
    _ ≤ _ := Int.toNat_le_toNat h2

/-- C7 witness: at capacity 1000 and rate 1/2 the hash count is ≥ 1. -/
theorem hash_count_formulas_witness :
    1 ≤ BloomFilter.optimal_num_hash_functions
      (BloomFilter.optimal_num_bits 1000 (1 / 2)) 1000 :=
  hash_count_formulas 1000 (1 / 2) (by decide) one_half_pos le_rfl

end SpectraCache
